import Mathlib

/-!
# Verification of the Atlantis locking & step-pipeline orchestration engine

Shallow embedding of the Go sources:
* `server/events/runtime/apply_step_runner.go` (`ApplyStepRunner.Run`),
* the `yaml` package (`ParserValidator`: `ReadConfig`, `HasConfigFile`,
  `parseAndValidate`, `validateProjectNames`, `validateWorkflows`,
  `validateWorkflowExists`),
and, where the deciding code is not among the sources, models written from
the design document (the Lock Manager, `GetPlanFilename`, and the external
parsing stages of `parseAndValidate`).

Go machine state is made explicit: the filesystem is a map from paths to
file nodes, the Terraform executor is a function parameter and the calls
issued to it are returned as a trace, and Go's `(value, error)` returns
become pairs with `Option GoError`.
-/

namespace Atlantis

/-- Terraform versions are treated as opaque identifiers (the code only
stores and forwards them, never inspects them). -/
abbrev TFVersion := String

/-- Model of Go errors as produced by this code: `os`-level not-exist
errors (detected by `os.IsNotExist`), plain `fmt.Errorf` errors, and
`errors.Wrapf` wrappings (which `os.IsNotExist` does not see through). -/
inductive GoError where
  | notExist (path : String)
  | simple (msg : String)
  | wrapped (msg : String) (cause : GoError)
deriving DecidableEq, Repr

/-- `os.IsNotExist`: true exactly on the raw not-exist error. A wrapped
error is a new error value, so `os.IsNotExist` returns false on it. -/
def GoError.isNotExist : GoError → Bool
  | .notExist _ => true
  | _ => false

/-- Escaping of one character as done by Go's `%q` verb (`strconv.Quote`),
restricted to the escapes relevant to paths: backslash, double quote and
the common control characters; other characters are kept as-is. -/
def goQuoteChar (c : Char) : String :=
  if c = '\\' then "\\\\"
  else if c = '\"' then "\\\""
  else if c = '\n' then "\\n"
  else if c = '\t' then "\\t"
  else if c = '\r' then "\\r"
  else String.singleton c

/-- Go's `fmt.Sprintf("%q", s)`: the string escaped and surrounded by
double quotes, forming a single argument even if `s` contains spaces. -/
def goQuote (s : String) : String :=
  "\"" ++ String.join (s.toList.map goQuoteChar) ++ "\""

/-- Go's `filepath.Join` on two clean relative components. -/
def joinPath (a b : String) : String :=
  if a = "" then b else if b = "" then a else a ++ "/" ++ b

/-- A node of the modelled filesystem: nothing at the path, a readable
regular file with its content, a regular file whose read fails, a
directory, or a path whose `stat` itself errors. -/
inductive FileNode where
  | absent
  | file (content : String)
  | unreadableFile (msg : String)
  | dir
  | statError (msg : String)
deriving DecidableEq, Repr

/-- The filesystem: a map from paths to nodes. -/
abbrev FS := String → FileNode

/-- Result of `os.Stat`: success (with the `IsDir` bit), a not-exist
error, or another error. -/
inductive StatResult where
  | ok (isDir : Bool)
  | errNotExist
  | errOther (msg : String)
deriving DecidableEq, Repr

/-- `os.Stat` over the modelled filesystem. -/
def statFS (fs : FS) (p : String) : StatResult :=
  match fs p with
  | .absent => .errNotExist
  | .file _ => .ok false
  | .unreadableFile _ => .ok false
  | .dir => .ok true
  | .statError m => .errOther m

/-- Result of `ioutil.ReadFile`. -/
inductive ReadFileResult where
  | ok (data : String)
  | errNotExist
  | errOther (msg : String)
deriving DecidableEq, Repr

/-- `ioutil.ReadFile` over the modelled filesystem. -/
def readFileFS (fs : FS) (p : String) : ReadFileResult :=
  match fs p with
  | .absent => .errNotExist
  | .file c => .ok c
  | .unreadableFile m => .errOther m
  | .dir => .errOther ("read " ++ p ++ ": is a directory")
  | .statError m => .errOther m

/-- `valid.Project`: a validated project declaration (also the shape of
`ctx.ProjectConfig` in `models.ProjectCommandContext`). Go's `*string`
pointer fields become `Option`. -/
structure ValidProject where
  dir : String
  workspace : String
  name : Option String
  workflow : Option String
  terraformVersion : Option TFVersion
deriving DecidableEq, Repr

/-- `models.ProjectCommandContext`, restricted to the fields
`ApplyStepRunner.Run` reads (the log sink is not modelled). -/
structure ProjectCommandContext where
  repoRelDir : String
  workspace : String
  commentArgs : List String
  projectConfig : Option ValidProject
deriving DecidableEq, Repr

/-- Modelled from the spec: `GetPlanFilename` is not among the sources.
The spec's Plan Artifact Store derives the path deterministically from
`(directory, workspace, project-disambiguator)`, with distinct paths for
distinct `(workspace, project-disambiguator)` pairs under one base
directory: named projects prepend their name to the workspace. -/
def GetPlanFilename (workspace : String) (projectConfig : Option ValidProject) : String :=
  match projectConfig with
  | some pc =>
    match pc.name with
    | some n => n ++ "-" ++ workspace ++ ".tfplan"
    | none => workspace ++ ".tfplan"
  | none => workspace ++ ".tfplan"

/-- One invocation of the Terraform executor
(`RunCommandWithVersion(log, path, args, version, workspace)`; the log
sink is not modelled). -/
structure ExecCall where
  path : String
  args : List String
  version : Option TFVersion
  workspace : String
deriving DecidableEq, Repr

/-- The `TerraformExec` collaborator: maps an invocation to the Go
`(output, error)` pair. -/
abbrev TerraformExec := ExecCall → String × Option GoError

/-- `ApplyStepRunner`: carries the Terraform executor collaborator. -/
structure ApplyStepRunner where
  TerraformExecutor : TerraformExec

/-- The message of the error built by `ApplyStepRunner.Run` when no plan
file is found (`fmt.Errorf` with two `%q` verbs). -/
def noPlanFoundMsg (dir workspace : String) : String :=
  "no plan found at path " ++ goQuote dir ++ " and workspace " ++ goQuote workspace ++
    " – did you run plan?"

/-- `ApplyStepRunner.Run` from `apply_step_runner.go`. Besides the Go
`(output string, error)` result it returns the trace of executor
invocations, so that "the executor is never called" is expressible. -/
def ApplyStepRunner.Run (a : ApplyStepRunner) (fs : FS) (ctx : ProjectCommandContext)
    (extraArgs : List String) (path : String) :
    String × Option GoError × List ExecCall :=
  let planPath := joinPath path (GetPlanFilename ctx.workspace ctx.projectConfig)
  match statFS fs planPath with
  | .ok false =>
    let tfApplyCmd := ["apply", "-input=false", "-no-color"] ++ extraArgs ++
      ctx.commentArgs ++ [goQuote planPath]
    let tfVersion : Option TFVersion :=
      match ctx.projectConfig with
      | some pc => pc.terraformVersion
      | none => none
    let call : ExecCall := ⟨path, tfApplyCmd, tfVersion, ctx.workspace⟩
    let res := a.TerraformExecutor call
    (res.1, res.2, [call])
  | _ =>
    ("", some (.simple (noPlanFoundMsg ctx.repoRelDir ctx.workspace)), [])

/-- The engine-wide default tool version. `ApplyStepRunner` carries no
configurable default: the version variable's Go zero value is the nil
pointer, i.e. the default is unset ("use whatever is installed"). -/
def defaultTFVersion : Option TFVersion := none

/-- `raw.Project`: a project declaration as parsed, before validation. -/
structure RawProject where
  dir : String
  workspace : String
  name : Option String
  workflow : Option String
  terraformVersion : Option TFVersion
deriving DecidableEq, Repr

/-- `raw.Workflow`: a named ordered step sequence; the code under
verification never inspects workflow bodies, only their names, so steps
are kept opaque as strings. -/
structure RawWorkflow where
  steps : List String
deriving DecidableEq, Repr

/-- `raw.Config`: the strict-parsed configuration. Go's
`map[string]raw.Workflow` becomes an association list. -/
structure RawConfig where
  version : Nat
  projects : List RawProject
  workflows : List (String × RawWorkflow)
deriving DecidableEq, Repr

/-- `valid.Config`: the validated configuration. -/
structure ValidConfig where
  version : Nat
  projects : List ValidProject
  workflows : List (String × RawWorkflow)
deriving DecidableEq, Repr

/-- Go's zero value `valid.Config{}`. -/
def ValidConfig.empty : ValidConfig := ⟨0, [], []⟩

/-- Message of the undefined-workflow error
(`fmt.Errorf("workflow %q is not defined", workflow)`). -/
def workflowNotDefinedMsg (w : String) : String :=
  "workflow " ++ goQuote w ++ " is not defined"

/-- `ParserValidator.validateWorkflowExists`: a project referencing no
workflow passes; one referencing a key of the workflow map passes; any
other reference fails naming the workflow. -/
def validateWorkflowExists (project : RawProject) (workflows : List (String × RawWorkflow)) :
    Option GoError :=
  match project.workflow with
  | none => none
  | some workflow =>
    if workflows.any (fun kv => kv.1 = workflow) then none
    else some (.simple (workflowNotDefinedMsg workflow))

/-- The loop of `ParserValidator.validateWorkflows`: first failing project
determines the error. -/
def validateWorkflowsList : List RawProject → List (String × RawWorkflow) → Option GoError
  | [], _ => none
  | p :: rest, ws =>
    match validateWorkflowExists p ws with
    | some e => some e
    | none => validateWorkflowsList rest ws

/-- `ParserValidator.validateWorkflows`. -/
def validateWorkflows (config : RawConfig) : Option GoError :=
  validateWorkflowsList config.projects config.workflows

/-- Message of the duplicate-project-name error. -/
def dupNameMsg (n : String) : String :=
  "found two or more projects with name " ++ goQuote n ++ "; project names must be unique"

/-- Message of the unnamed-shared-pair error. -/
def dirWsMsg (d w : String) : String :=
  "there are two or more projects with dir: " ++ goQuote d ++ " workspace: " ++ goQuote w ++
    " that are not all named; they must have a \x27name\x27 key so they can be targeted for apply\x27s separately"

/-- First loop of `ParserValidator.validateProjectNames`: walk the
projects, recording each assigned name in `seen` (the Go
`map[string]bool`), failing on the first name already recorded. -/
def checkNamesUnique : List ValidProject → List String → Option GoError
  | [], _ => none
  | p :: rest, seen =>
    match p.name with
    | some name =>
      if seen.contains name then some (.simple (dupNameMsg name))
      else checkNamesUnique rest (name :: seen)
    | none => checkNamesUnique rest seen

/-- Lookup in the `dirWorkspaceToNames` map (`map[string][]string`);
a missing key reads as the empty slice. -/
def lookupNames (acc : List (String × List String)) (key : String) : List String :=
  match acc.find? (fun kv => kv.1 = key) with
  | some kv => kv.2
  | none => []

/-- `dirWorkspaceToNames[key] = append(dirWorkspaceToNames[key], name)`. -/
def appendName : List (String × List String) → String → String → List (String × List String)
  | [], key, n => [(key, [n])]
  | kv :: rest, key, n =>
    if kv.1 = key then (key, kv.2 ++ [n]) :: rest
    else kv :: appendName rest key n

/-- The map key `fmt.Sprintf("%s/%s", project.Dir, project.Workspace)`. -/
def dwKey (p : ValidProject) : String := p.dir ++ "/" ++ p.workspace

/-- Second loop of `ParserValidator.validateProjectNames`: a project whose
key already has entries (`len(names) > 0`) and whose name is nil fails;
otherwise its name (or `""` for an unnamed project) is appended under its
key. -/
def checkDirWsNamed : List ValidProject → List (String × List String) → Option GoError
  | [], _ => none
  | p :: rest, acc =>
    if 0 < (lookupNames acc (dwKey p)).length ∧ p.name = none then
      some (.simple (dirWsMsg p.dir p.workspace))
    else
      checkDirWsNamed rest (appendName acc (dwKey p) (p.name.getD ""))

/-- `ParserValidator.validateProjectNames`: name uniqueness first, then
the dir/workspace disambiguation check. -/
def validateProjectNames (config : ValidConfig) : Option GoError :=
  match checkNamesUnique config.projects [] with
  | some e => some e
  | none => checkDirWsNamed config.projects []

/-- Modelled from the spec: the strict YAML parse (`yaml.UnmarshalStrict`,
rejecting unknown fields), the per-field raw schema validation
(`raw.Config.Validate`) and the raw-to-valid transformation
(`raw.Config.ToValid`) live outside the sources; they are abstract stage
parameters threaded into `parseAndValidate`. -/
structure ParserEnv where
  unmarshalStrict : String → Except GoError RawConfig
  rawValidate : RawConfig → Option GoError
  toValid : RawConfig → ValidConfig

/-- `ParserValidator.parseAndValidate`: strict parse, raw validation,
workflow cross-reference validation, transformation, project-name
validation — in this order, each stage short-circuiting. -/
def parseAndValidate (env : ParserEnv) (configData : String) : ValidConfig × Option GoError :=
  match env.unmarshalStrict configData with
  | .error e => (ValidConfig.empty, some e)
  | .ok rawConfig =>
    match env.rawValidate rawConfig with
    | some e => (ValidConfig.empty, some e)
    | none =>
      match validateWorkflows rawConfig with
      | some e => (ValidConfig.empty, some e)
      | none =>
        let validConfig := env.toValid rawConfig
        match validateProjectNames validConfig with
        | some e => (ValidConfig.empty, some e)
        | none => (validConfig, none)

/-- `ParserValidator.configFilePath`. -/
def configFilePath (repoDir repoConfig : String) : String := joinPath repoDir repoConfig

/-- `ParserValidator.ReadConfig`: a missing file's not-exist error is
returned raw (so `os.IsNotExist` detects it); a read failure is wrapped
as "unable to read ... file"; a parse/validation failure is wrapped as
"parsing ...". -/
def ReadConfig (env : ParserEnv) (fs : FS) (repoDir repoConfig : String) :
    ValidConfig × Option GoError :=
  let configFile := configFilePath repoDir repoConfig
  match readFileFS fs configFile with
  | .errNotExist => (ValidConfig.empty, some (.notExist configFile))
  | .errOther m =>
    (ValidConfig.empty, some (.wrapped ("unable to read " ++ repoConfig ++ " file") (.simple m)))
  | .ok configData =>
    match parseAndValidate env configData with
    | (_, some e) => (ValidConfig.empty, some (.wrapped ("parsing " ++ repoConfig) e))
    | (config, none) => (config, none)

/-- `ParserValidator.HasConfigFile`. -/
def HasConfigFile (fs : FS) (repoDir repoConfig : String) : Bool × Option GoError :=
  match statFS fs (configFilePath repoDir repoConfig) with
  | .errNotExist => (false, none)
  | .ok _ => (true, none)
  | .errOther m => (false, some (.simple m))

/-- The key a lock is held on: `(repoFullName, projectPath, workspace)`. -/
structure LockTuple where
  repoFullName : String
  projectPath : String
  workspace : String
deriving DecidableEq, Repr

/-- Outcome of `TryAcquire`. -/
inductive AcquireResult where
  | acquired
  | alreadyHeldBySelf
  | deniedHeldByOther (holder : Nat)
deriving DecidableEq, Repr

/-- Modelled from the spec: the Lock Manager's code is not among the
sources. Following §4.1/§9, its state is an arena of lock records indexed
by tuple key — here an association list of (tuple, owning pull-request
number) records. -/
abbrev LockState := List (LockTuple × Nat)

/-- Modelled from the spec: `TryAcquire(tuple, pullRequestID)`. An atomic
compare-and-set against the arena: a free tuple is acquired, the current
holder re-acquires idempotently, any other pull request is denied with
the holder's id and the arena is unchanged. -/
def tryAcquire (s : LockState) (t : LockTuple) (pr : Nat) : AcquireResult × LockState :=
  match s.find? (fun r => r.1 = t) with
  | some r => if r.2 = pr then (.alreadyHeldBySelf, s) else (.deniedHeldByOther r.2, s)
  | none => (.acquired, (t, pr) :: s)

/-- Modelled from the spec: `Release(tuple, pullRequestID)` removes the
record only when held by this pull request. -/
def releaseLock (s : LockState) (t : LockTuple) (pr : Nat) : LockState :=
  s.filter (fun r => !(r.1 = t ∧ r.2 = pr : Bool))

/-- Modelled from the spec: `ReleaseAllForPullRequest` (on PR
close/merge). -/
def releaseAllForPR (s : LockState) (pr : Nat) : LockState :=
  s.filter (fun r => !(r.2 = pr : Bool))

/-- One atomic operation against the Lock Manager; the spec requires
linearizable acquire/release semantics, so any concurrent history is a
sequence of these atomic steps. -/
inductive LockOp where
  | tryAcquire (t : LockTuple) (pr : Nat)
  | release (t : LockTuple) (pr : Nat)
  | releaseAll (pr : Nat)

/-- Effect of one atomic operation on the arena. -/
def stepLock (s : LockState) : LockOp → LockState
  | .tryAcquire t pr => (tryAcquire s t pr).2
  | .release t pr => releaseLock s t pr
  | .releaseAll pr => releaseAllForPR s pr

/-- The arena reached from the empty arena by a sequence of atomic
operations (an arbitrary interleaving of concurrent callers). -/
def runLock (ops : List LockOp) : LockState :=
  ops.foldl stepLock []

/-! ## Theorems -/

/-- The argument list as the spec describes it: fixed leading flags, then
caller-supplied extra arguments, then the context's comment arguments,
then the plan path quoted as a single final argument. -/
def applyArgsSpec (ctx : ProjectCommandContext) (extraArgs : List String) (path : String) :
    List String :=
  ["apply", "-input=false", "-no-color"] ++ extraArgs ++ ctx.commentArgs ++
    [goQuote (joinPath path (GetPlanFilename ctx.workspace ctx.projectConfig))]

/-- C1: if the plan artifact path computed for the context's workspace and
project config does not exist, or is a directory rather than a regular
file, then `ApplyStepRunner.Run` returns the empty output, an error whose
message names the context's `RepoRelDir` and workspace (both `%q`-quoted
inside `noPlanFoundMsg`), and an empty executor-call trace: the Terraform
executor is never invoked. -/
theorem apply_run_no_plan (a : ApplyStepRunner) (fs : FS) (ctx : ProjectCommandContext)
    (extraArgs : List String) (path : String)
    (h : fs (joinPath path (GetPlanFilename ctx.workspace ctx.projectConfig)) = FileNode.absent ∨
         fs (joinPath path (GetPlanFilename ctx.workspace ctx.projectConfig)) = FileNode.dir) :
    ApplyStepRunner.Run a fs ctx extraArgs path =
      ("", some (.simple (noPlanFoundMsg ctx.repoRelDir ctx.workspace)), []) := by
  rcases h with h | h <;> simp [ApplyStepRunner.Run, statFS, h]

/-- Witness for C1 at a concrete context and an absent plan file. -/
theorem apply_run_no_plan_witness :
    ApplyStepRunner.Run ⟨fun _ => ("", none)⟩ (fun _ => FileNode.absent)
        ⟨"d", "default", [], none⟩ [] "repo" =
      ("", some (.simple (noPlanFoundMsg "d" "default")), []) :=
  apply_run_no_plan _ _ _ _ _ (Or.inl rfl)

/-- C2: when a regular plan file exists at the computed path,
`ApplyStepRunner.Run` invokes the executor exactly once, with the fixed
flags, then the extra arguments, then the comment arguments, then the
quoted plan path as final argument, and returns the executor's output and
error unchanged. -/
theorem apply_run_exec (a : ApplyStepRunner) (fs : FS) (ctx : ProjectCommandContext)
    (extraArgs : List String) (path : String) (content : String)
    (h : fs (joinPath path (GetPlanFilename ctx.workspace ctx.projectConfig)) =
         FileNode.file content) :
    ∃ v, ApplyStepRunner.Run a fs ctx extraArgs path =
      ((a.TerraformExecutor ⟨path, applyArgsSpec ctx extraArgs path, v, ctx.workspace⟩).1,
       (a.TerraformExecutor ⟨path, applyArgsSpec ctx extraArgs path, v, ctx.workspace⟩).2,
       [⟨path, applyArgsSpec ctx extraArgs path, v, ctx.workspace⟩]) := by
  refine ⟨match ctx.projectConfig with
          | some pc => pc.terraformVersion
          | none => none, ?_⟩
  simp [ApplyStepRunner.Run, statFS, h, applyArgsSpec]

/-- Fixture executor for the apply-step witnesses. -/
def execW : TerraformExec := fun c => (String.intercalate " " c.args, none)

/-- Fixture runner for the apply-step witnesses. -/
def runnerW : ApplyStepRunner := ⟨execW⟩

/-- Fixture filesystem with a regular file at every path. -/
def fsFileW : FS := fun _ => FileNode.file ("x")

/-- Fixture context for the apply-step witnesses. -/
def ctxW : ProjectCommandContext := ⟨"d", "default", ["-a"], none⟩

/-- Witness for C2 at a concrete context with an existing plan file. -/
theorem apply_run_exec_witness :
    ∃ v, ApplyStepRunner.Run runnerW fsFileW ctxW ["-e"] "repo" =
      ((runnerW.TerraformExecutor ⟨"repo", applyArgsSpec ctxW ["-e"] "repo", v, ctxW.workspace⟩).1,
       (runnerW.TerraformExecutor ⟨"repo", applyArgsSpec ctxW ["-e"] "repo", v, ctxW.workspace⟩).2,
       [⟨"repo", applyArgsSpec ctxW ["-e"] "repo", v, ctxW.workspace⟩]) :=
  apply_run_exec runnerW fsFileW ctxW ["-e"] "repo" ("x") rfl

/-- C9: when the executor is invoked, the version it is passed is the
project's declared terraform version when the project config is present
and declares one, and otherwise the engine-wide default
(`defaultTFVersion`, which is unset). -/
theorem apply_run_version (a : ApplyStepRunner) (fs : FS) (ctx : ProjectCommandContext)
    (extraArgs : List String) (path : String) (content : String)
    (h : fs (joinPath path (GetPlanFilename ctx.workspace ctx.projectConfig)) =
         FileNode.file content) :
    ∃ c, (ApplyStepRunner.Run a fs ctx extraArgs path).2.2 = [c] ∧
      c.version = (match ctx.projectConfig with
                   | some pc =>
                     match pc.terraformVersion with
                     | some v => some v
                     | none => defaultTFVersion
                   | none => defaultTFVersion) := by
  refine ⟨⟨path, applyArgsSpec ctx extraArgs path,
    (match ctx.projectConfig with | some pc => pc.terraformVersion | none => none),
    ctx.workspace⟩, ?_, ?_⟩
  · simp [ApplyStepRunner.Run, statFS, h, applyArgsSpec]
  · cases hpc : ctx.projectConfig with
    | none => simp [defaultTFVersion]
    | some pc => rcases htv : pc.terraformVersion with _ | v <;> simp [htv, defaultTFVersion]

/-- Witness for C9: a context whose project config declares a version. -/
theorem apply_run_version_witness :
    ∃ c, (ApplyStepRunner.Run runnerW fsFileW
        ⟨"d", "default", [], some ⟨"d", "default", none, none, some ("0.11.0")⟩⟩ [] "repo").2.2 =
      [c] ∧
      c.version = (match (some (⟨"d", "default", none, none, some ("0.11.0")⟩ : ValidProject) :
                    Option ValidProject) with
                   | some pc =>
                     match pc.terraformVersion with
                     | some v => some v
                     | none => defaultTFVersion
                   | none => defaultTFVersion) :=
  apply_run_version runnerW fsFileW
    ⟨"d", "default", [], some ⟨"d", "default", none, none, some ("0.11.0")⟩⟩ [] "repo" ("x") rfl

/-- C8: absence of the configuration file is distinguished from every
other failure. When the file is absent, `HasConfigFile` returns
`(false, none)` and `ReadConfig` returns an error on which
`os.IsNotExist` holds; when the file exists but cannot be read, or exists
and fails parsing/validation, `ReadConfig` returns a wrapped error on
which `os.IsNotExist` does not hold. -/
theorem config_absence_distinguished (env : ParserEnv) (fs : FS) (repoDir repoConfig : String) :
    (fs (configFilePath repoDir repoConfig) = FileNode.absent →
      HasConfigFile fs repoDir repoConfig = (false, none) ∧
      ∃ e, (ReadConfig env fs repoDir repoConfig).2 = some e ∧ e.isNotExist = true) ∧
    (∀ m, fs (configFilePath repoDir repoConfig) = FileNode.unreadableFile m →
      ∃ msg cause, (ReadConfig env fs repoDir repoConfig).2 = some (.wrapped msg cause) ∧
        (GoError.wrapped msg cause).isNotExist = false) ∧
    (∀ data e, fs (configFilePath repoDir repoConfig) = FileNode.file data →
      (parseAndValidate env data).2 = some e →
      ∃ msg, (ReadConfig env fs repoDir repoConfig).2 = some (.wrapped msg e) ∧
        (GoError.wrapped msg e).isNotExist = false) := by
  refine ⟨fun h => ?_, fun m h => ?_, fun data e h hp => ?_⟩
  · refine ⟨?_, .notExist (configFilePath repoDir repoConfig), ?_, rfl⟩
    · simp [HasConfigFile, statFS, h]
    · simp [ReadConfig, readFileFS, h]
  · exact ⟨"unable to read " ++ repoConfig ++ " file", .simple m,
      by simp [ReadConfig, readFileFS, h], rfl⟩
  · refine ⟨"parsing " ++ repoConfig, ?_, rfl⟩
    simp only [ReadConfig, readFileFS, h]
    rcases hpv : parseAndValidate env data with ⟨c, err⟩
    rw [hpv] at hp
    simp at hp
    subst hp
    simp

/-- Fixture parser environment whose strict parse always fails. -/
def envFailW : ParserEnv :=
  ⟨fun _ => .error (.simple ("unknown field")), fun _ => none, fun _ => ValidConfig.empty⟩

/-- Fixture filesystem with no file anywhere. -/
def fsAbsentW : FS := fun _ => FileNode.absent

/-- Witness for C8 at an absent configuration file. -/
theorem config_absence_distinguished_witness :
    HasConfigFile fsAbsentW "repo" "atlantis.yaml" = (false, none) ∧
    ∃ e, (ReadConfig envFailW fsAbsentW "repo" "atlantis.yaml").2 = some e ∧
      e.isNotExist = true :=
  (config_absence_distinguished envFailW fsAbsentW "repo" "atlantis.yaml").1 rfl

/-- C10: whenever `parseAndValidate` or `ReadConfig` returns a non-nil
error, the configuration value returned alongside it is the zero-valued
`valid.Config{}`. -/
theorem config_zero_on_error (env : ParserEnv) (fs : FS) (repoDir repoConfig data : String) :
    ((parseAndValidate env data).2.isSome → (parseAndValidate env data).1 = ValidConfig.empty) ∧
    ((ReadConfig env fs repoDir repoConfig).2.isSome →
      (ReadConfig env fs repoDir repoConfig).1 = ValidConfig.empty) := by
  constructor
  · intro h
    unfold parseAndValidate at h ⊢
    rcases hu : env.unmarshalStrict data with e | raw <;> simp [hu] at h ⊢
    rcases hv : env.rawValidate raw with _ | e <;> simp [hv] at h ⊢
    rcases hw : validateWorkflows raw with _ | e <;> simp [hw] at h ⊢
    rcases hn : validateProjectNames (env.toValid raw) with _ | e <;> simp [hn] at h ⊢
  · intro h
    unfold ReadConfig at h ⊢
    rcases hr : readFileFS fs (configFilePath repoDir repoConfig) with data' | _ | m <;>
      simp [hr] at h ⊢
    rcases hpv : parseAndValidate env data' with ⟨c, err⟩
    rcases err with _ | e <;> simp [hpv] at h ⊢

/-- Witness for C10: a parse failure yields the zero config from both
functions. -/
theorem config_zero_on_error_witness :
    (parseAndValidate envFailW "x").1 = ValidConfig.empty ∧
    (ReadConfig envFailW (fun _ => FileNode.file ("x")) "repo" "atlantis.yaml").1 =
      ValidConfig.empty :=
  ⟨(config_zero_on_error envFailW fsAbsentW "repo" "atlantis.yaml" "x").1 rfl,
   (config_zero_on_error envFailW (fun _ => FileNode.file ("x")) "repo" "atlantis.yaml" "x").2 rfl⟩

/-- Inversion for `validateWorkflowExists`: an error can only arise from a
referenced workflow that is not a key of the map, and carries its name. -/
theorem validateWorkflowExists_some_inv (p : RawProject) (ws : List (String × RawWorkflow))
    (e : GoError) (h : validateWorkflowExists p ws = some e) :
    ∃ w, p.workflow = some w ∧ (ws.any (fun kv => kv.1 = w)) = false ∧
      e = .simple (workflowNotDefinedMsg w) := by
  unfold validateWorkflowExists at h
  rcases hw : p.workflow with _ | w <;> rw [hw] at h
  · simp at h
  · by_cases hm : (ws.any (fun kv => kv.1 = w)) = true
    · simp [hm] at h
    · rw [Bool.not_eq_true] at hm
      simp [hm] at h
      exact ⟨w, rfl, hm, h.symm⟩

/-- The `validateWorkflows` loop fails, naming an undefined referenced
workflow, whenever some project references a workflow missing from the
map. -/
theorem validateWorkflowsList_some_of_bad (ps : List RawProject)
    (ws : List (String × RawWorkflow))
    (h : ∃ p ∈ ps, ∃ w, p.workflow = some w ∧ (ws.any (fun kv => kv.1 = w)) = false) :
    ∃ w', (∃ p' ∈ ps, p'.workflow = some w' ∧ (ws.any (fun kv => kv.1 = w')) = false) ∧
      validateWorkflowsList ps ws = some (.simple (workflowNotDefinedMsg w')) := by
  induction ps with
  | nil => rcases h with ⟨p, hp, _⟩; simp at hp
  | cons p0 rest ih =>
    rcases hve : validateWorkflowExists p0 ws with _ | e
    · rcases h with ⟨p, hp, w, hw, hmiss⟩
      rcases List.mem_cons.mp hp with rfl | hmem
      · exfalso
        unfold validateWorkflowExists at hve
        rw [hw] at hve
        simp [hmiss] at hve
      · obtain ⟨w', hw', hlist⟩ := ih ⟨p, hmem, w, hw, hmiss⟩
        obtain ⟨p', hp', hrest⟩ := hw'
        refine ⟨w', ⟨p', List.mem_cons_of_mem _ hp', hrest⟩, ?_⟩
        simp [validateWorkflowsList, hve, hlist]
    · obtain ⟨w, hw, hmiss, rfl⟩ := validateWorkflowExists_some_inv p0 ws e hve
      refine ⟨w, ⟨p0, List.mem_cons_self _ _, hw, hmiss⟩, ?_⟩
      simp [validateWorkflowsList, hve]

/-- The `validateWorkflows` loop passes when every project's reference
(if any) is a key of the map. -/
theorem validateWorkflowsList_none_of_good (ps : List RawProject)
    (ws : List (String × RawWorkflow))
    (h : ∀ p ∈ ps, ∀ w, p.workflow = some w → (ws.any (fun kv => kv.1 = w)) = true) :
    validateWorkflowsList ps ws = none := by
  induction ps with
  | nil => rfl
  | cons p0 rest ih =>
    have hve : validateWorkflowExists p0 ws = none := by
      unfold validateWorkflowExists
      rcases hw : p0.workflow with _ | w
      · rfl
      · simp [h p0 (List.mem_cons_self _ _) w hw]
    simp [validateWorkflowsList, hve]
    exact ih (fun p hp w hw => h p (List.mem_cons_of_mem _ hp) w hw)

/-- C6: a project referencing no workflow passes the cross-reference
check, a project referencing a key of the workflow map passes, and a
project referencing a missing workflow fails with the message
`workflow "<name>" is not defined` naming it; at configuration level,
some project referencing a missing workflow makes `validateWorkflows`
fail with that message for an offending name, and everything resolving
makes it pass. -/
theorem workflow_reference_check (config : RawConfig) :
    (∀ p ws, p.workflow = none → validateWorkflowExists p ws = none) ∧
    (∀ p ws w, p.workflow = some w → (ws.any (fun kv => kv.1 = w)) = true →
      validateWorkflowExists p ws = none) ∧
    (∀ p ws w, p.workflow = some w → (ws.any (fun kv => kv.1 = w)) = false →
      validateWorkflowExists p ws = some (.simple (workflowNotDefinedMsg w))) ∧
    ((∃ p ∈ config.projects, ∃ w, p.workflow = some w ∧
        (config.workflows.any (fun kv => kv.1 = w)) = false) →
      ∃ w', (∃ p' ∈ config.projects, p'.workflow = some w' ∧
          (config.workflows.any (fun kv => kv.1 = w')) = false) ∧
        validateWorkflows config = some (.simple (workflowNotDefinedMsg w'))) ∧
    ((∀ p ∈ config.projects, ∀ w, p.workflow = some w →
        (config.workflows.any (fun kv => kv.1 = w)) = true) →
      validateWorkflows config = none) := by
  refine ⟨fun p ws h => ?_, fun p ws w h hm => ?_, fun p ws w h hm => ?_, fun h => ?_, fun h => ?_⟩
  · simp [validateWorkflowExists, h]
  · simp [validateWorkflowExists, h, hm]
  · simp [validateWorkflowExists, h, hm]
  · exact validateWorkflowsList_some_of_bad config.projects config.workflows h
  · exact validateWorkflowsList_none_of_good config.projects config.workflows h

/-- Fixture configuration whose single project references the undefined
workflow "custom". -/
def badWorkflowConfigW : RawConfig :=
  ⟨2, [⟨"d", "default", none, some ("custom"), none⟩], []⟩

/-- Witness for C6: the undefined reference "custom" is reported. -/
theorem workflow_reference_check_witness :
    ∃ w', (∃ p' ∈ badWorkflowConfigW.projects, p'.workflow = some w' ∧
        (badWorkflowConfigW.workflows.any (fun kv => kv.1 = w')) = false) ∧
      validateWorkflows badWorkflowConfigW = some (.simple (workflowNotDefinedMsg w')) :=
  (workflow_reference_check badWorkflowConfigW).2.2.2.1
    ⟨⟨"d", "default", none, some ("custom"), none⟩, by decide, "custom", rfl, rfl⟩

/-- The list of names assigned across a project list, in order. -/
def assignedNames (ps : List ValidProject) : List String :=
  ps.filterMap (fun p => p.name)

theorem assignedNames_cons_none (p : ValidProject) (rest : List ValidProject)
    (h : p.name = none) : assignedNames (p :: rest) = assignedNames rest := by
  simp [assignedNames, List.filterMap_cons, h]

theorem assignedNames_cons_some (p : ValidProject) (rest : List ValidProject) (n : String)
    (h : p.name = some n) : assignedNames (p :: rest) = n :: assignedNames rest := by
  simp [assignedNames, List.filterMap_cons, h]

/-- The uniqueness loop passes when the assigned names are pairwise
distinct and disjoint from the accumulator. -/
theorem checkNamesUnique_none (ps : List ValidProject) (seen : List String)
    (hnd : (assignedNames ps).Nodup)
    (hdisj : ∀ n ∈ assignedNames ps, seen.contains n = false) :
    checkNamesUnique ps seen = none := by
  induction ps generalizing seen with
  | nil => rfl
  | cons p rest ih =>
    rcases hn : p.name with _ | n
    · rw [assignedNames_cons_none p rest hn] at hnd hdisj
      simp only [checkNamesUnique, hn]
      exact ih seen hnd hdisj
    · rw [assignedNames_cons_some p rest n hn] at hnd hdisj
      have hcn : seen.contains n = false := hdisj n (List.mem_cons_self _ _)
      simp only [checkNamesUnique, hn, hcn, Bool.false_eq_true, if_false]
      rcases List.nodup_cons.mp hnd with ⟨hnmem, hnd'⟩
      refine ih (n :: seen) hnd' (fun m hm => ?_)
      have hne : m ≠ n := fun he => hnmem (he ▸ hm)
      have hms : m ∉ seen := by simpa using hdisj m (List.mem_cons_of_mem _ hm)
      simp [List.contains_cons, hne, hms]

/-- The uniqueness loop fails with a duplicate-name message whenever the
assigned names are not pairwise distinct, or one of them was already in
the accumulator; the reported name is genuinely repeated (either against
the accumulator or twice in the list). -/
theorem checkNamesUnique_some (ps : List ValidProject) (seen : List String)
    (h : ¬ ((assignedNames ps).Nodup ∧ ∀ n ∈ assignedNames ps, seen.contains n = false)) :
    ∃ m, checkNamesUnique ps seen = some (.simple (dupNameMsg m)) ∧
      ((seen.contains m = true ∧ m ∈ assignedNames ps) ∨
        2 ≤ (assignedNames ps).count m) := by
  induction ps generalizing seen with
  | nil =>
    exact absurd ⟨by simp [assignedNames], by simp [assignedNames]⟩ h
  | cons p rest ih =>
    rcases hn : p.name with _ | n
    · rw [assignedNames_cons_none p rest hn] at h ⊢
      obtain ⟨m, hres, hcase⟩ := ih seen h
      exact ⟨m, by simp only [checkNamesUnique, hn]; exact hres, hcase⟩
    · rw [assignedNames_cons_some p rest n hn] at h ⊢
      by_cases hc : seen.contains n = true
      · refine ⟨n, ?_, Or.inl ⟨hc, List.mem_cons_self _ _⟩⟩
        have hcm : n ∈ seen := by simpa using hc
        simp [checkNamesUnique, hn, hcm]
      · have hc' : seen.contains n = false := by
          rwa [Bool.not_eq_true] at hc
        have hrec : ¬ ((assignedNames rest).Nodup ∧
            ∀ m ∈ assignedNames rest, (n :: seen).contains m = false) := by
          rintro ⟨hnd', hdisj'⟩
          apply h
          constructor
          · refine List.nodup_cons.mpr ⟨fun hmem => ?_, hnd'⟩
            have := hdisj' n hmem
            simp [List.contains_cons] at this
          · intro m hm
            rcases List.mem_cons.mp hm with rfl | hm'
            · exact hc'
            · have := hdisj' m hm'
              simp [List.contains_cons] at this
              simpa using this.2
        obtain ⟨m, hres, hcase⟩ := ih (n :: seen) hrec
        refine ⟨m, ?_, ?_⟩
        · simp only [checkNamesUnique, hn, hc', Bool.false_eq_true, if_false]
          exact hres
        · rcases hcase with ⟨hmseen, hmnames⟩ | hcount
          · rcases hmn : (m == n) with _ | _
            · have hmn' : m ≠ n := by simpa using hmn
              have hseen : seen.contains m = true := by
                simpa [List.contains_cons, hmn'] using hmseen
              exact Or.inl ⟨hseen, List.mem_cons_of_mem _ hmnames⟩
            · have hmn' : m = n := by simpa using hmn
              subst hmn'
              have : 1 ≤ (assignedNames rest).count m := List.one_le_count_iff.mpr hmnames
              refine Or.inr ?_
              rw [List.count_cons_self]
              omega
          · refine Or.inr ?_
            rw [List.count_cons]
            omega

/-- C7: two projects carrying equal non-empty names make
`validateProjectNames` fail with the duplicate-name message, reporting a
name that at least two projects carry; and when the assigned names are
pairwise distinct, the uniqueness check passes. -/
theorem project_name_uniqueness (c : ValidConfig) :
    ((∃ l₁ p l₂ q l₃ n, c.projects = l₁ ++ p :: l₂ ++ q :: l₃ ∧
        p.name = some n ∧ q.name = some n ∧ n ≠ "") →
      ∃ m, 2 ≤ (assignedNames c.projects).count m ∧
        validateProjectNames c = some (.simple (dupNameMsg m))) ∧
    ((assignedNames c.projects).Nodup → checkNamesUnique c.projects [] = none) := by
  constructor
  · rintro ⟨l₁, p, l₂, q, l₃, n, hsplit, hp, hq, -⟩
    have hnames : assignedNames c.projects =
        assignedNames l₁ ++ (n :: (assignedNames l₂ ++ n :: assignedNames l₃)) := by
      rw [hsplit]
      simp [assignedNames, List.filterMap_append, List.filterMap_cons, hp, hq]
    have hcn : 2 ≤ (assignedNames c.projects).count n := by
      rw [hnames]
      rw [List.count_append, List.count_cons_self, List.count_append, List.count_cons_self]
      omega
    have hnnd : ¬ ((assignedNames c.projects).Nodup ∧
        ∀ m ∈ assignedNames c.projects, ([] : List String).contains m = false) := by
      rintro ⟨hnd, -⟩
      have := List.nodup_iff_count_le_one.mp hnd n
      omega
    obtain ⟨m, hres, hcase⟩ := checkNamesUnique_some c.projects [] hnnd
    have hcm : 2 ≤ (assignedNames c.projects).count m := by
      rcases hcase with ⟨habs, -⟩ | h2
      · simp at habs
      · exact h2
    exact ⟨m, hcm, by simp only [validateProjectNames, hres]⟩
  · intro hnd
    exact checkNamesUnique_none c.projects [] hnd (by simp)

/-- Fixture configuration with two projects both named "p". -/
def dupNameConfigW : ValidConfig :=
  ⟨2, [⟨"d1", "default", some ("p"), none, none⟩,
       ⟨"d2", "default", some ("p"), none, none⟩], []⟩

/-- Witness for C7: the duplicate name "p" is reported. -/
theorem project_name_uniqueness_witness :
    ∃ m, 2 ≤ (assignedNames dupNameConfigW.projects).count m ∧
      validateProjectNames dupNameConfigW = some (.simple (dupNameMsg m)) :=
  (project_name_uniqueness dupNameConfigW).1
    ⟨[], ⟨"d1", "default", some ("p"), none, none⟩, [],
      ⟨"d2", "default", some ("p"), none, none⟩, [], "p", rfl, rfl, rfl, by decide⟩

theorem lookupNames_cons (a : String) (b : List String) (rest : List (String × List String))
    (k : String) :
    lookupNames ((a, b) :: rest) k = if a = k then b else lookupNames rest k := by
  by_cases h : a = k <;> simp [lookupNames, List.find?_cons, h]

/-- Appending a name under key `k'` makes `k'` non-empty and leaves every
other key's entry unchanged. -/
theorem lookupNames_appendName (acc : List (String × List String)) (k k' n : String) :
    lookupNames (appendName acc k' n) k =
      if k = k' then lookupNames acc k ++ [n] else lookupNames acc k := by
  induction acc with
  | nil =>
    by_cases h : k = k'
    · subst h; simp [appendName, lookupNames_cons, lookupNames]
    · simp [appendName, lookupNames_cons, lookupNames, h, Ne.symm h]
  | cons kv rest ih =>
    rcases kv with ⟨a, b⟩
    by_cases h1 : a = k'
    · subst h1
      by_cases h2 : k = a
      · subst h2; simp [appendName, lookupNames_cons]
      · simp [appendName, lookupNames_cons, h2, Ne.symm h2]
    · by_cases h2 : a = k
      · subst h2
        simp [appendName, lookupNames_cons, h1]
      · simp [appendName, lookupNames_cons, h1, h2, ih]

/-- The dir/workspace loop fails with a message naming a directory and
workspace whenever some unnamed project is preceded (in list order or by
the accumulator) by an entry with the same key; the reported pair belongs
to such an unnamed project. -/
theorem checkDirWsNamed_fails (ps : List ValidProject) (acc : List (String × List String))
    (h : ∃ l₁ p l₂, ps = l₁ ++ p :: l₂ ∧ p.name = none ∧
      (lookupNames acc (dwKey p) ≠ [] ∨ ∃ q ∈ l₁, dwKey q = dwKey p)) :
    ∃ d w, checkDirWsNamed ps acc = some (.simple (dirWsMsg d w)) ∧
      ∃ l₁ p l₂, ps = l₁ ++ p :: l₂ ∧ p.name = none ∧ p.dir = d ∧ p.workspace = w ∧
        (lookupNames acc (dwKey p) ≠ [] ∨ ∃ q ∈ l₁, dwKey q = dwKey p) := by
  induction ps generalizing acc with
  | nil =>
    obtain ⟨l₁, p, l₂, hsplit, -, -⟩ := h
    exact absurd hsplit (by simp)
  | cons p0 rest ih =>
    by_cases hc : 0 < (lookupNames acc (dwKey p0)).length ∧ p0.name = none
    · refine ⟨p0.dir, p0.workspace, ?_, [], p0, rest, rfl, hc.2, rfl, rfl, Or.inl ?_⟩
      · simp only [checkDirWsNamed]
        rw [if_pos hc]
      · intro hnil
        rw [hnil] at hc
        simp at hc
    · obtain ⟨l₁, p, l₂, hsplit, hname, hdisj⟩ := h
      cases l₁ with
      | nil =>
        simp only [List.nil_append, List.cons.injEq] at hsplit
        obtain ⟨rfl, rfl⟩ := hsplit
        rcases hdisj with hlk | ⟨q, hq, -⟩
        · exact absurd ⟨List.length_pos.mpr hlk, hname⟩ hc
        · simp at hq
      | cons q0 l₁' =>
        simp only [List.cons_append, List.cons.injEq] at hsplit
        obtain ⟨rfl, hrest⟩ := hsplit
        have hnext : ∃ m₁ p' m₂, rest = m₁ ++ p' :: m₂ ∧ p'.name = none ∧
            (lookupNames (appendName acc (dwKey p0) (p0.name.getD "")) (dwKey p') ≠ [] ∨
              ∃ q ∈ m₁, dwKey q = dwKey p') := by
          refine ⟨l₁', p, l₂, hrest, hname, ?_⟩
          rcases hdisj with hlk | ⟨q, hq, hkq⟩
          · left
            rw [lookupNames_appendName]
            by_cases hk : dwKey p = dwKey p0
            · rw [if_pos hk]; simp
            · rw [if_neg hk]; exact hlk
          · rcases List.mem_cons.mp hq with rfl | hq'
            · left
              rw [lookupNames_appendName, if_pos hkq.symm]
              simp
            · right; exact ⟨q, hq', hkq⟩
        obtain ⟨d, w, hres, m₁, p', m₂, hsplit', hname', hdir', hws', hdisj'⟩ := ih _ hnext
        refine ⟨d, w, ?_, p0 :: m₁, p', m₂, by rw [hsplit']; rfl, hname', hdir', hws', ?_⟩
        · simp only [checkDirWsNamed]
          rw [if_neg hc]
          exact hres
        · rcases hdisj' with hlk | ⟨q, hq, hkq⟩
          · rw [lookupNames_appendName] at hlk
            by_cases hk : dwKey p' = dwKey p0
            · right; exact ⟨p0, List.mem_cons_self _ _, hk.symm⟩
            · rw [if_neg hk] at hlk
              left; exact hlk
          · right; exact ⟨q, List.mem_cons_of_mem _ hq, hkq⟩

/-- Fixture: an unnamed project at ("d", "default"). -/
def unnamedProjW : ValidProject := ⟨"d", "default", none, none, none⟩

/-- Fixture: a named project at the same ("d", "default") pair. -/
def namedProjW : ValidProject := ⟨"d", "default", some ("p"), none, none⟩

/-- Fixture configuration listing the unnamed project before the named
one. -/
def unnamedFirstConfigW : ValidConfig := ⟨2, [unnamedProjW, namedProjW], []⟩

/-- C3 counterexample: two projects share ("d", "default") and the first
lacks a name, yet `validateProjectNames` passes — the code only fails
when the unnamed project comes after another project with the same key,
so the claim's "every ordering" universality is false. -/
theorem unnamed_first_shared_pair_passes :
    unnamedProjW.dir = namedProjW.dir ∧
    unnamedProjW.workspace = namedProjW.workspace ∧
    unnamedProjW.name = none ∧
    namedProjW.name ≠ none ∧
    validateProjectNames unnamedFirstConfigW = none := by decide

/-- C3 amended: in a configuration where an unnamed project is preceded
by some project with the same (directory, workspace) pair, validation
fails; and when the name-uniqueness phase passes, the error names the
directory and workspace of an unnamed project preceded by a same-key
project. -/
theorem unnamed_shared_pair_fails (c : ValidConfig) (l₁ : List ValidProject)
    (pj : ValidProject) (l₂ : List ValidProject) (p₀ : ValidProject)
    (hsplit : c.projects = l₁ ++ pj :: l₂) (hmem : p₀ ∈ l₁)
    (hd : p₀.dir = pj.dir) (hw : p₀.workspace = pj.workspace) (hun : pj.name = none) :
    (∃ e, validateProjectNames c = some e) ∧
    (checkNamesUnique c.projects [] = none →
      ∃ d w, validateProjectNames c = some (.simple (dirWsMsg d w)) ∧
        ∃ m₁ p m₂, c.projects = m₁ ++ p :: m₂ ∧ p.name = none ∧ p.dir = d ∧
          p.workspace = w ∧ ∃ q ∈ m₁, dwKey q = dwKey p) := by
  have hkey : dwKey p₀ = dwKey pj := by
    simp [dwKey, hd, hw]
  have hfail := checkDirWsNamed_fails c.projects []
    ⟨l₁, pj, l₂, hsplit, hun, Or.inr ⟨p₀, hmem, hkey⟩⟩
  obtain ⟨d, w, hres, m₁, p, m₂, hsplit', hname', hdir', hws', hdisj'⟩ := hfail
  have hdisj'' : ∃ q ∈ m₁, dwKey q = dwKey p := by
    rcases hdisj' with hlk | hq
    · exact (hlk (by simp [lookupNames])).elim
    · exact hq
  constructor
  · rcases hcnu : checkNamesUnique c.projects [] with _ | e
    · exact ⟨.simple (dirWsMsg d w), by simp only [validateProjectNames, hcnu]; exact hres⟩
    · exact ⟨e, by simp only [validateProjectNames, hcnu]⟩
  · intro hcnu
    exact ⟨d, w, by simp only [validateProjectNames, hcnu]; exact hres,
      m₁, p, m₂, hsplit', hname', hdir', hws', hdisj''⟩

/-- Fixture configuration listing the named project before the unnamed
one. -/
def namedFirstConfigW : ValidConfig := ⟨2, [namedProjW, unnamedProjW], []⟩

/-- Witness for the amended C3: with the named project first, validation
fails naming ("d", "default"). -/
theorem unnamed_shared_pair_fails_witness :
    (∃ e, validateProjectNames namedFirstConfigW = some e) ∧
    (checkNamesUnique namedFirstConfigW.projects [] = none →
      ∃ d w, validateProjectNames namedFirstConfigW = some (.simple (dirWsMsg d w)) ∧
        ∃ m₁ p m₂, namedFirstConfigW.projects = m₁ ++ p :: m₂ ∧ p.name = none ∧ p.dir = d ∧
          p.workspace = w ∧ ∃ q ∈ m₁, dwKey q = dwKey p) :=
  unnamed_shared_pair_fails namedFirstConfigW [namedProjW] unnamedProjW [] namedProjW
    rfl (List.mem_cons_self _ _) rfl rfl rfl

/-- Each atomic lock operation preserves the arena invariant that tuple
keys are pairwise distinct. -/
theorem lockKeys_nodup_step (s : LockState) (op : LockOp)
    (h : (s.map Prod.fst).Nodup) : ((stepLock s op).map Prod.fst).Nodup := by
  cases op with
  | tryAcquire t pr =>
    simp only [stepLock, tryAcquire]
    rcases hf : s.find? (fun r => r.1 = t) with _ | r
    · rw [hf]
      show (((t, pr) :: s).map Prod.fst).Nodup
      rw [List.map_cons]
      refine List.nodup_cons.mpr ⟨fun hmem => ?_, h⟩
      obtain ⟨r, hr, hrt⟩ := List.mem_map.mp hmem
      have := List.find?_eq_none.mp hf r hr
      simp [hrt] at this
    · rw [hf]
      by_cases hpr : r.2 = pr <;> simp [hpr, h]
  | release t pr =>
    exact List.Nodup.sublist ((List.filter_sublist s).map Prod.fst) h
  | releaseAll pr =>
    exact List.Nodup.sublist ((List.filter_sublist s).map Prod.fst) h

/-- Every reachable arena has pairwise distinct tuple keys: at most one
lock exists per tuple at any time. -/
theorem runLock_keys_nodup (ops : List LockOp) : ((runLock ops).map Prod.fst).Nodup := by
  suffices h : ∀ s, (s.map Prod.fst).Nodup →
      ((ops.foldl stepLock s).map Prod.fst).Nodup from h [] (by simp)
  induction ops with
  | nil => exact fun s hs => hs
  | cons op rest ih => exact fun s hs => ih _ (lockKeys_nodup_step s op hs)

/-- In an arena with distinct keys, the record of a held tuple is what
`find?` returns. -/
theorem lockState_find_of_held (s : LockState) (t : LockTuple) (pr : Nat)
    (hnd : (s.map Prod.fst).Nodup) (hmem : (t, pr) ∈ s) :
    s.find? (fun r => r.1 = t) = some (t, pr) := by
  induction s with
  | nil => simp at hmem
  | cons r rest ih =>
    rw [List.map_cons] at hnd
    rcases List.mem_cons.mp hmem with rfl | hmem'
    · exact List.find?_cons_of_pos _ (by simp)
    · have hr : ¬(r.1 = t) := by
        intro he
        have ht : t ∈ rest.map Prod.fst := List.mem_map.mpr ⟨(t, pr), hmem', rfl⟩
        exact (List.nodup_cons.mp hnd).1 (he ▸ ht)
      rw [List.find?_cons_of_neg _ (by simp [hr])]
      exact ih (List.nodup_cons.mp hnd).2 hmem'

/-- C4: in any arena reachable by any interleaving of atomic operations,
while pull request A holds tuple T, `TryAcquire(T, B)` with B ≠ A is
denied (reporting holder A) and leaves the arena unchanged, while
`TryAcquire(T, A)` succeeds idempotently and leaves the arena unchanged;
and the reachable arena holds at most one lock per tuple. -/
theorem lock_mutual_exclusion (ops : List LockOp) (t : LockTuple) (A B : Nat)
    (hheld : (t, A) ∈ runLock ops) (hne : B ≠ A) :
    (tryAcquire (runLock ops) t B).1 = .deniedHeldByOther A ∧
    (tryAcquire (runLock ops) t B).2 = runLock ops ∧
    (tryAcquire (runLock ops) t A).1 = .alreadyHeldBySelf ∧
    (tryAcquire (runLock ops) t A).2 = runLock ops ∧
    ((runLock ops).map Prod.fst).Nodup := by
  have hnd := runLock_keys_nodup ops
  have hf := lockState_find_of_held (runLock ops) t A hnd hheld
  have hne' : ¬(A = B) := fun he => hne he.symm
  refine ⟨?_, ?_, ?_, ?_, hnd⟩ <;> simp [tryAcquire, hf, hne']

/-- Fixture lock tuple. -/
def tupleW : LockTuple := ⟨"owner/repo", "d", "default"⟩

/-- Witness for C4: pull request 7 holds the tuple after its acquire;
9 is denied, 7 re-acquires. -/
theorem lock_mutual_exclusion_witness :
    (tryAcquire (runLock [.tryAcquire tupleW 7]) tupleW 9).1 = .deniedHeldByOther 7 ∧
    (tryAcquire (runLock [.tryAcquire tupleW 7]) tupleW 9).2 = runLock [.tryAcquire tupleW 7] ∧
    (tryAcquire (runLock [.tryAcquire tupleW 7]) tupleW 7).1 = .alreadyHeldBySelf ∧
    (tryAcquire (runLock [.tryAcquire tupleW 7]) tupleW 7).2 = runLock [.tryAcquire tupleW 7] ∧
    ((runLock [.tryAcquire tupleW 7]).map Prod.fst).Nodup :=
  lock_mutual_exclusion [.tryAcquire tupleW 7] tupleW 7 9 (by decide) (by decide)

/-- C5: `parseAndValidate` performs its stages in the fixed order strict
parse → raw schema validation → workflow cross-reference validation →
transformation → project-name validation, each stage short-circuiting: a
failing stage's error (with the zero config) is the result no matter what
every later stage would say, and only full success returns the
transformed configuration. -/
theorem parseAndValidate_stage_order (env : ParserEnv) (data : String) :
    (∀ e, env.unmarshalStrict data = .error e →
      parseAndValidate env data = (ValidConfig.empty, some e)) ∧
    (∀ raw e, env.unmarshalStrict data = .ok raw → env.rawValidate raw = some e →
      parseAndValidate env data = (ValidConfig.empty, some e)) ∧
    (∀ raw e, env.unmarshalStrict data = .ok raw → env.rawValidate raw = none →
      validateWorkflows raw = some e →
      parseAndValidate env data = (ValidConfig.empty, some e)) ∧
    (∀ raw e, env.unmarshalStrict data = .ok raw → env.rawValidate raw = none →
      validateWorkflows raw = none → validateProjectNames (env.toValid raw) = some e →
      parseAndValidate env data = (ValidConfig.empty, some e)) ∧
    (∀ raw, env.unmarshalStrict data = .ok raw → env.rawValidate raw = none →
      validateWorkflows raw = none → validateProjectNames (env.toValid raw) = none →
      parseAndValidate env data = (env.toValid raw, none)) := by
  refine ⟨fun e h1 => ?_, fun raw e h1 h2 => ?_, fun raw e h1 h2 h3 => ?_,
    fun raw e h1 h2 h3 h4 => ?_, fun raw h1 h2 h3 h4 => ?_⟩
  · simp [parseAndValidate, h1]
  · simp [parseAndValidate, h1, h2]
  · simp [parseAndValidate, h1, h2, h3]
  · simp [parseAndValidate, h1, h2, h3, h4]
  · simp [parseAndValidate, h1, h2, h3, h4]

/-- Witness for C5: a failing strict parse is reported as such. -/
theorem parseAndValidate_stage_order_witness :
    parseAndValidate envFailW "x" = (ValidConfig.empty, some (.simple ("unknown field"))) :=
  (parseAndValidate_stage_order envFailW "x").1 (.simple ("unknown field")) rfl

end Atlantis
